import Mathlib

/-!
Verification of the Private Contact Discovery PSI stack: a shallow embedding
of the client-side fingerprint pipeline (`normalizeContact`, `hashContact`,
`hashContactList`, `resolveMatches`), the per-slot encryption step
(`encryptContactHashes`), the ARCIS circuits (`submit_and_match`,
`reveal_alice_matches`) and the ledger-record parser (`parseSessionAccount`),
together with proofs of the specified properties.

Machine integers are modelled as `Nat`: `u128` fingerprints, `u32` counts and
`u8` flags never overflow in any of the modelled code paths (the match counter
is bounded by 1024), so no modular reduction is required.  The SHA-256 digest
and the Rescue cipher are modelled as abstract function parameters (`digest`,
`enc`): every verified property is independent of the concrete primitive.
-/

namespace PCD

/-! ### Fingerprint pipeline: normalization (frontend `hash.ts`) -/

/-- Model of the JavaScript whitespace class `\s` (ASCII part), which is also
the character set removed by `String.prototype.trim` at both ends:
space, tab, newline, carriage return, vertical tab, form feed. -/
def jsSpace (c : Char) : Bool :=
  c.toNat = 32 || c.toNat = 9 || c.toNat = 10 || c.toNat = 13 ||
    c.toNat = 11 || c.toNat = 12

/-- Model of the JavaScript digit class `\d`, i.e. the characters `0`-`9`. -/
def jsDigit (c : Char) : Bool :=
  48 ≤ c.toNat && c.toNat ≤ 57

/-- Model of `String.prototype.trim`: drop whitespace from both ends. -/
def trimChars (l : List Char) : List Char :=
  ((l.dropWhile jsSpace).reverse.dropWhile jsSpace).reverse

/-- Character class of the phone-detection regex `^[\d\s\-\+\(\)]+$`. -/
def isPhoneChar (c : Char) : Bool :=
  jsDigit c || jsSpace c || c = '-' || c = '+' || c = '(' || c = ')'

/-- Test of the regex `^[\d\s\-\+\(\)]+$`: at least one character, and every
character in the class. -/
def phoneLike (l : List Char) : Bool :=
  !l.isEmpty && l.all isPhoneChar

/-- Model of `normalized.replace(/[^\d+]/g, "")`: keep digits and plus. -/
def keepDigitsPlus (l : List Char) : List Char :=
  l.filter (fun c => jsDigit c || c = '+')

/-- Character-list body of `normalizeContact`: trim, lowercase; when the
string looks like a phone number, strip everything but digits and `+` and
prepend the default country code `+1` when no leading `+` is present. -/
def normalizeChars (l : List Char) : List Char :=
  let n := (trimChars l).map Char.toLower
  if phoneLike n then
    let r := keepDigitsPlus n
    if r.head? = some '+' then r else '+' :: '1' :: r
  else n

/-- Source `normalizeContact` (frontend `hash.ts`). -/
def normalizeContact (contact : String) : String :=
  ⟨normalizeChars contact.data⟩

/-! ### Fingerprint pipeline: hashing (frontend `hash.ts`)

The SHA-256-truncated-to-u128 digest is abstracted as a function
`digest : String → Nat` applied to the normalized string. -/

/-- Source `MAX_CONTACTS`. -/
def MAX_CONTACTS : Nat := 32

/-- Source `hashContact`: normalize, then digest the normalized string. -/
def hashContact (digest : String → Nat) (contact : String) : Nat :=
  digest (normalizeContact contact)

/-- One step of the JavaScript `Set`-based deduplication: append the string
when it has not been seen yet. -/
def insertUnique (acc : List String) (s : String) : List String :=
  if s ∈ acc then acc else acc ++ [s]

/-- Model of `[...new Set(list)]`: keep the first occurrence of each element,
preserving first-seen order. -/
def dedupFirst (l : List String) : List String :=
  l.foldl insertUnique []

/-- The deduplicated, normalized, non-empty identifier list built inside
`hashContactList`. -/
def uniqueNormalized (contacts : List String) : List String :=
  (dedupFirst (contacts.map normalizeContact)).filter (fun c => 0 < c.length)

/-- Model of `new Array(32).fill(0)` followed by writing `vals[i]` at every
index `i < vals.length`: slot `i` of the result holds `vals[i]` when present
and `0` otherwise. -/
def fillHashes (vals : List Nat) : List Nat :=
  (List.range MAX_CONTACTS).map (fun i => vals.getD i 0)

/-- Source `hashContactList`: reject more than 32 raw inputs, then normalize,
deduplicate, drop empties, hash, and zero-pad to 32 slots. -/
def hashContactList (digest : String → Nat) (contacts : List String) :
    Except String (List Nat × Nat) :=
  if contacts.length > MAX_CONTACTS then
    Except.error "Maximum 32 contacts allowed"
  else
    let unique := uniqueNormalized contacts
    Except.ok (fillHashes (unique.map (hashContact digest)), unique.length)

/-- Source `resolveMatches`: keep the non-zero matched hashes, then collect
(in original order) every original contact whose recomputed fingerprint
occurs among them. -/
def resolveMatches (digest : String → Nat) (originalContacts : List String)
    (matchedHashes : List Nat) : List String :=
  let nonZeroHashes := matchedHashes.filter (fun h => h ≠ 0)
  originalContacts.foldl
    (fun acc contact =>
      if nonZeroHashes.any (fun h => h = hashContact digest contact) then
        acc ++ [contact]
      else acc)
    []

/-! ### Per-slot encryption (frontend `arcium.ts`)

The Rescue cipher is abstracted as a deterministic function
`enc : Nat → Nat → Nat` of plaintext and nonce; ciphertexts are abstract
values of type `Nat`. -/

/-- Source `encryptContactHashes`: encrypt each of the 32 hash slots
individually under the single submission nonce, then encrypt the count under
the same nonce.  Returns the list of 32 slot ciphertexts and the count
ciphertext. -/
def encryptContactHashes (enc : Nat → Nat → Nat) (hashes : Fin 32 → Nat)
    (count : Nat) (nonce : Nat) : List Nat × Nat :=
  let encryptedHashes :=
    (List.finRange 32).foldl (fun acc i => acc ++ [enc (hashes i) nonce]) []
  (encryptedHashes, enc count nonce)

/-! ### ARCIS circuits (`submit_and_match`, `reveal_alice_matches`) -/

/-- Accumulator of the `submit_and_match` comparison loop: the two match
arrays and the running match counter. -/
structure MatchAcc where
  aliceMatches : Fin 32 → Nat
  bobMatches : Fin 32 → Nat
  matchCount : Nat

/-- The per-pair match condition of the circuit:
`alice[i] != 0 && bob[j] != 0 && alice[i] == bob[j]`. -/
def isMatch (a b : Fin 32 → Nat) (i j : Fin 32) : Bool :=
  decide (a i ≠ 0) && decide (b j ≠ 0) && decide (a i = b j)

/-- One inner-loop iteration of `submit_and_match`: both branches of each
conditional are written back via an unconditional select. -/
def matchStep (a b : Fin 32 → Nat) (s : MatchAcc) (i j : Fin 32) : MatchAcc :=
  let m := isMatch a b i j
  { aliceMatches := Function.update s.aliceMatches i
      (if m then a i else s.aliceMatches i)
    bobMatches := Function.update s.bobMatches j
      (if m then b j else s.bobMatches j)
    matchCount := if m then s.matchCount + 1 else s.matchCount }

/-- The 32x32 comparison loop of the `submit_and_match` circuit, starting
from all-zero match arrays and a zero counter. -/
def submit_and_match (a b : Fin 32 → Nat) : MatchAcc :=
  (List.finRange 32).foldl
    (fun s i => (List.finRange 32).foldl (fun s j => matchStep a b s i j) s)
    ⟨fun _ => 0, fun _ => 0, 0⟩

/-- Instrumented accumulator: the plain accumulator plus a comparison counter
and the sequence of evaluated slot pairs, as the spec's "instrumented
comparison counter in tests". -/
structure InstrAcc where
  acc : MatchAcc
  comparisons : Nat
  trace : List (Fin 32 × Fin 32)

/-- Instrumented inner-loop iteration: performs exactly the `matchStep` work
and records that the pair `(i, j)` was evaluated. -/
def instrStep (a b : Fin 32 → Nat) (s : InstrAcc) (i j : Fin 32) : InstrAcc :=
  { acc := matchStep a b s.acc i j
    comparisons := s.comparisons + 1
    trace := s.trace ++ [(i, j)] }

/-- The comparison loop of `submit_and_match`, instrumented. -/
def submit_and_match_instr (a b : Fin 32 → Nat) : InstrAcc :=
  (List.finRange 32).foldl
    (fun s i => (List.finRange 32).foldl (fun s j => instrStep a b s i j) s)
    ⟨⟨fun _ => 0, fun _ => 0, 0⟩, 0, []⟩

/-- The `SessionState` struct of the ARCIS circuits. -/
structure SessionState where
  alice_hashes : Fin 32 → Nat
  alice_count : Nat
  bob_hashes : Fin 32 → Nat
  bob_count : Nat
  alice_submitted : Nat
  bob_submitted : Nat
  is_matched : Nat
  result_alice : Fin 32 → Nat
  result_bob : Fin 32 → Nat
  result_count : Nat

/-- The `MatchResult` struct of the ARCIS circuits. -/
structure MatchResult where
  matches' : Fin 32 → Nat
  match_count : Nat

/-- Source `reveal_alice_matches`: a read-only projection of the session
state, selecting the stored results when `is_matched == 1` and zeros
otherwise.  The circuit returns only the `MatchResult`; the session state is
not among its outputs, so it is unchanged by construction. -/
def reveal_alice_matches (state : SessionState) : MatchResult :=
  { matches' := if state.is_matched = 1 then state.result_alice else fun _ => 0
    match_count := if state.is_matched = 1 then state.result_count else 0 }

/-! ### Session ledger record parsing (frontend `program.ts`) -/

/-- The parsed `SessionAccount` record; byte-array fields are byte lists. -/
structure SessionAccount where
  sessionId : List Nat
  alice : List Nat
  bob : List Nat
  status : Nat
  bump : Nat
deriving DecidableEq

/-- Source `parseSessionAccount`: reject buffers shorter than 106 bytes,
otherwise decode the fixed layout
`discriminator(8) + session_id(32) + alice(32) + bob(32) + status(1) + bump(1)`. -/
def parseSessionAccount (data : List Nat) : Option SessionAccount :=
  if data.length < 106 then none
  else
    let accountData := data.drop 8
    some
      { sessionId := accountData.take 32
        alice := (accountData.drop 32).take 32
        bob := (accountData.drop 64).take 32
        status := accountData.getD 96 0
        bump := accountData.getD 97 0 }

/-! ### Derived notions used by the claim statements -/

/-- The ContactSet invariant: slots `[0, count)` non-zero, slots
`[count, 32)` zero. -/
def ContactSetInv (hashes : Fin 32 → Nat) (count : Nat) : Prop :=
  count ≤ 32 ∧
    ∀ i : Fin 32, (i.val < count → hashes i ≠ 0) ∧ (count ≤ i.val → hashes i = 0)

instance (hashes : Fin 32 → Nat) (count : Nat) :
    Decidable (ContactSetInv hashes count) := by
  unfold ContactSetInv; infer_instance

/-- The set of matching ordered pairs of the 32x32 grid: both slots non-zero
and equal. -/
def matchPairs (a b : Fin 32 → Nat) : Finset (Fin 32 × Fin 32) :=
  Finset.univ.filter (fun p => a p.1 ≠ 0 ∧ b p.2 ≠ 0 ∧ a p.1 = b p.2)

/-- The full 32x32 grid of slot pairs in loop order. -/
def pairList : List (Fin 32 × Fin 32) :=
  (List.finRange 32).flatMap (fun i => (List.finRange 32).map (fun j => (i, j)))

/-! ### Concrete example inputs used by the witnesses -/

/-- Example ContactSet hash array: one populated slot holding fingerprint 7. -/
def exampleAlice : Fin 32 → Nat := fun i => if i.val = 0 then 7 else 0

/-- Example ContactSet hash array for the second party: also fingerprint 7. -/
def exampleBob : Fin 32 → Nat := fun j => if j.val = 0 then 7 else 0

/-- Example session state before the comparison has run (`is_matched = 0`),
with non-zero garbage in the stored result fields. -/
def exampleSession : SessionState :=
  ⟨fun _ => 0, 0, fun _ => 0, 0, 1, 0, 0, fun _ => 5, fun _ => 6, 3⟩

/-- Example 106-byte ledger buffer. -/
def exampleBuffer : List Nat := List.range 106

/-- Example raw contact list: a duplicate after lowercasing and an entry that
normalizes to the empty string. -/
def exampleContacts : List String := ["b", "B", " "]

/-- Example list of 32 pairwise-distinct identifiers. -/
def example32 : List String :=
  (List.range 32).map (fun n => String.mk (List.replicate (n + 1) 'a'))

/-- Example zero-padded hash array with two populated slots. -/
def examplePadded : Fin 32 → Nat := fun i => if i.val < 2 then i.val + 9 else 0

end PCD

namespace PCD

/-! ### Generic accumulator-loop lemmas -/

theorem foldl_push_map {α β : Type} (f : α → β) :
    ∀ (l : List α) (acc : List β),
      l.foldl (fun acc x => acc ++ [f x]) acc = acc ++ l.map f
  | [], acc => by simp
  | x :: l, acc => by
    simp [foldl_push_map f l (acc ++ [f x])]

theorem foldl_push_filter {α : Type} (p : α → Bool) :
    ∀ (l : List α) (acc : List α),
      l.foldl (fun acc x => if p x then acc ++ [x] else acc) acc
        = acc ++ l.filter p
  | [], acc => by simp
  | x :: l, acc => by
    by_cases h : p x <;>
      simp [h, foldl_push_filter p l, List.filter_cons]

/-! ### Encryption lemmas -/

theorem encryptContactHashes_fst (enc : Nat → Nat → Nat) (hashes : Fin 32 → Nat)
    (count nonce : Nat) :
    (encryptContactHashes enc hashes count nonce).1
      = List.ofFn (fun i : Fin 32 => enc (hashes i) nonce) := by
  unfold encryptContactHashes
  rw [List.ofFn_eq_map]
  simpa using
    foldl_push_map (fun i : Fin 32 => enc (hashes i) nonce) (List.finRange 32) []

theorem encryptContactHashes_getD (enc : Nat → Nat → Nat) (hashes : Fin 32 → Nat)
    (count nonce : Nat) (i : Fin 32) :
    (encryptContactHashes enc hashes count nonce).1.getD i.val 0
      = enc (hashes i) nonce := by
  rw [encryptContactHashes_fst, List.getD_eq_getElem?_getD,
    List.getElem?_eq_getElem (by simp)]
  simp only [Option.getD_some, List.getElem_ofFn, Fin.eta]

/-- Claim C5: `encryptContactHashes` returns exactly 32 per-slot ciphertexts,
the `i`-th being the encryption of `hashes[i]` alone under the single given
per-submission nonce, plus one additional ciphertext that is the encryption
of the count field under that same nonce. -/
theorem encryptContactHashes_spec (enc : Nat → Nat → Nat) (hashes : Fin 32 → Nat)
    (count nonce : Nat) :
    (encryptContactHashes enc hashes count nonce).1.length = 32 ∧
    (∀ i : Fin 32,
      (encryptContactHashes enc hashes count nonce).1.getD i.val 0
        = enc (hashes i) nonce) ∧
    (encryptContactHashes enc hashes count nonce).2 = enc count nonce := by
  refine ⟨?_, encryptContactHashes_getD enc hashes count nonce, rfl⟩
  rw [encryptContactHashes_fst]
  simp

/-- Claim C10: because the single submission nonce is reused for all 32 slot
encryptions and the modelled cipher is a deterministic function of plaintext
and nonce, equal hash slots yield identical ciphertexts; in particular every
zero-padding slot beyond the populated count encrypts to the one ciphertext
`enc 0 nonce`, so equality patterns among the slot ciphertexts reveal which
slots are padding. -/
theorem encryptContactHashes_nonce_reuse (enc : Nat → Nat → Nat)
    (hashes : Fin 32 → Nat) (count nonce : Nat) :
    (∀ i j : Fin 32, hashes i = hashes j →
      (encryptContactHashes enc hashes count nonce).1.getD i.val 0
        = (encryptContactHashes enc hashes count nonce).1.getD j.val 0) ∧
    ((∀ k : Fin 32, count ≤ k.val → hashes k = 0) →
      ∀ k : Fin 32, count ≤ k.val →
        (encryptContactHashes enc hashes count nonce).1.getD k.val 0
          = enc 0 nonce) := by
  constructor
  · intro i j hij
    rw [encryptContactHashes_getD, encryptContactHashes_getD, hij]
  · intro hpad k hk
    rw [encryptContactHashes_getD, hpad k hk]

/-- Witness for C10: a concrete cipher, a hash array padded beyond count 2,
and two equal slots. -/
theorem encryptContactHashes_nonce_reuse_witness :
    ((2 : Fin 32) ≠ (3 : Fin 32) ∧ examplePadded 2 = 0 ∧ examplePadded 3 = 0 ∧
      (∀ k : Fin 32, 2 ≤ k.val → examplePadded k = 0)) ∧
    (∀ k : Fin 32, 2 ≤ k.val →
      (encryptContactHashes Nat.add examplePadded 2 11).1.getD k.val 0
        = Nat.add 0 11) :=
  ⟨⟨by decide, by decide, by decide, by decide⟩,
    (encryptContactHashes_nonce_reuse Nat.add examplePadded 2 11).2 (by decide)⟩

/-! ### Capacity and reveal lemmas -/

/-- Claim C3: `hashContactList` fails with the capacity error precisely when
the raw input list has more than 32 elements, the check being applied to the
raw pre-normalization, pre-deduplication count; any list of at most 32 raw
identifiers produces a result, and on failure no hashes are produced (the
error is the entire output). -/
theorem hashContactList_capacity (digest : String → Nat) (contacts : List String) :
    (hashContactList digest contacts = Except.error "Maximum 32 contacts allowed"
      ↔ 32 < contacts.length) ∧
    (contacts.length ≤ 32 →
      ∃ hashes count, hashContactList digest contacts = Except.ok (hashes, count)) := by
  unfold hashContactList MAX_CONTACTS
  constructor
  · by_cases h : 32 < contacts.length <;> simp [h]
  · intro h
    simp [Nat.not_lt.mpr h]

/-- Witness for C3: the 32-element list of distinct identifiers succeeds. -/
theorem hashContactList_capacity_witness :
    example32.length ≤ 32 ∧
    ∃ hashes count,
      hashContactList String.length example32 = Except.ok (hashes, count) :=
  ⟨by decide, (hashContactList_capacity String.length example32).2 (by decide)⟩

/-- Claim C6: when `is_matched` is not 1 the reveal circuit returns an
all-zero `MatchResult` with count 0; when `is_matched = 1` it returns exactly
the stored `result_alice` and `result_count`.  The circuit's only output is
the `MatchResult` (the session state is not among its outputs), so repeated
invocation is a pure, state-preserving projection. -/
theorem reveal_alice_matches_spec (state : SessionState) :
    (state.is_matched ≠ 1 →
      reveal_alice_matches state = { matches' := fun _ => 0, match_count := 0 }) ∧
    (state.is_matched = 1 →
      reveal_alice_matches state =
        { matches' := state.result_alice, match_count := state.result_count }) := by
  constructor <;> intro h <;> simp [reveal_alice_matches, h]

/-- Witness for C6: a pre-match session state with non-zero stored garbage
still reveals all zeros. -/
theorem reveal_alice_matches_spec_witness :
    exampleSession.is_matched ≠ 1 ∧
    reveal_alice_matches exampleSession
      = { matches' := fun _ => 0, match_count := 0 } :=
  ⟨by decide, (reveal_alice_matches_spec exampleSession).1 (by decide)⟩

/-! ### Result resolution -/

/-- Claim C7: `resolveMatches` returns exactly those entries of the original
list, in original order, whose recomputed fingerprint equals some non-zero
entry of the matched-hash array; zero entries of the matched-hash array never
select anything. -/
theorem resolveMatches_spec (digest : String → Nat) (originalContacts : List String)
    (matchedHashes : List Nat) :
    resolveMatches digest originalContacts matchedHashes
      = originalContacts.filter
          (fun c => decide (hashContact digest c ∈ matchedHashes ∧
            hashContact digest c ≠ 0)) := by
  unfold resolveMatches
  rw [foldl_push_filter]
  simp only [List.nil_append]
  apply List.filter_congr
  intro c _
  rw [Bool.eq_iff_iff]
  simp only [List.any_eq_true, List.mem_filter, decide_eq_true_eq]
  constructor
  · rintro ⟨h, ⟨hmem, hne⟩, rfl⟩
    exact ⟨hmem, hne⟩
  · rintro ⟨hmem, hne⟩
    exact ⟨hashContact digest c, ⟨hmem, hne⟩, rfl⟩

end PCD

namespace PCD

/-! ### Ledger record parsing lemmas -/

theorem drop_take_eq_map_range (data : List Nat) (a n : Nat)
    (h : a + n ≤ data.length) :
    (data.drop a).take n = (List.range n).map (fun k => data.getD (a + k) 0) := by
  apply List.ext_getElem
  · simp only [List.length_take, List.length_drop, List.length_map,
      List.length_range]
    omega
  · intro i h1 h2
    have hi : i < n := by simpa using h2
    have hd : a + i < data.length := by omega
    simp only [List.getElem_take, List.getElem_drop, List.getElem_map,
      List.getElem_range]
    rw [List.getD_eq_getElem?_getD, List.getElem?_eq_getElem hd]
    simp

theorem drop_getD (data : List Nat) (a k : Nat) :
    (data.drop a).getD k 0 = data.getD (a + k) 0 := by
  rw [List.getD_eq_getElem?_getD, List.getD_eq_getElem?_getD,
    List.getElem?_drop]

/-- Claim C9: `parseSessionAccount` returns `none` on buffers shorter than
106 bytes, and otherwise decodes the record at the fixed layout offsets:
session identifier from bytes 8..40, first-party identity from 40..72,
second-party identity from 72..104, status at byte 104 and bump at byte 105,
all returned unmodified. -/
theorem parseSessionAccount_spec (data : List Nat) :
    (data.length < 106 → parseSessionAccount data = none) ∧
    (106 ≤ data.length →
      parseSessionAccount data = some
        { sessionId := (List.range 32).map (fun k => data.getD (8 + k) 0)
          alice := (List.range 32).map (fun k => data.getD (40 + k) 0)
          bob := (List.range 32).map (fun k => data.getD (72 + k) 0)
          status := data.getD 104 0
          bump := data.getD 105 0 }) := by
  constructor
  · intro h
    simp [parseSessionAccount, h]
  · intro h
    have h' : ¬data.length < 106 := by omega
    simp only [parseSessionAccount, h', if_false, Option.some.injEq]
    have e1 : (data.drop 8).take 32
        = (List.range 32).map (fun k => data.getD (8 + k) 0) :=
      drop_take_eq_map_range data 8 32 (by omega)
    have e2 : ((data.drop 8).drop 32).take 32
        = (List.range 32).map (fun k => data.getD (40 + k) 0) := by
      rw [List.drop_drop]
      exact drop_take_eq_map_range data 40 32 (by omega)
    have e3 : ((data.drop 8).drop 64).take 32
        = (List.range 32).map (fun k => data.getD (72 + k) 0) := by
      rw [List.drop_drop]
      exact drop_take_eq_map_range data 72 32 (by omega)
    have e4 : (data.drop 8).getD 96 0 = data.getD 104 0 := drop_getD data 8 96
    have e5 : (data.drop 8).getD 97 0 = data.getD 105 0 := drop_getD data 8 97
    rw [e1, e2, e3, e4, e5]

/-- Witness for C9: parsing a concrete 106-byte buffer. -/
theorem parseSessionAccount_spec_witness :
    106 ≤ exampleBuffer.length ∧
    parseSessionAccount exampleBuffer = some
      { sessionId := (List.range 32).map (fun k => exampleBuffer.getD (8 + k) 0)
        alice := (List.range 32).map (fun k => exampleBuffer.getD (40 + k) 0)
        bob := (List.range 32).map (fun k => exampleBuffer.getD (72 + k) 0)
        status := exampleBuffer.getD 104 0
        bump := exampleBuffer.getD 105 0 } :=
  ⟨by decide, (parseSessionAccount_spec exampleBuffer).2 (by decide)⟩

end PCD

namespace PCD

/-! ### Nested comparison loop lemmas -/

theorem foldl_nested {σ α β : Type} (f : σ → α → β → σ) :
    ∀ (is : List α) (js : List β) (s : σ),
      is.foldl (fun s i => js.foldl (fun s j => f s i j) s) s
        = (is.flatMap (fun i => js.map (fun j => (i, j)))).foldl
            (fun s p => f s p.1 p.2) s
  | [], _, _ => rfl
  | i :: is, js, s => by
    simp only [List.foldl_cons, List.flatMap_cons, List.foldl_append,
      List.foldl_map]
    exact foldl_nested f is js _

theorem mem_pairList (p : Fin 32 × Fin 32) : p ∈ pairList := by
  unfold pairList
  simp only [List.mem_flatMap, List.mem_map]
  exact ⟨p.1, List.mem_finRange _, p.2, List.mem_finRange _, rfl⟩

theorem pairList_nodup : pairList.Nodup := by
  unfold pairList
  rw [List.nodup_flatMap]
  constructor
  · intro i _
    exact (List.nodup_finRange 32).map (fun x y hxy => (Prod.mk.injEq _ _ _ _ ▸ hxy).2)
  · apply List.Pairwise.imp ?_ (List.nodup_finRange 32)
    intro i i' hne
    intro p hp hp'
    simp only [Function.comp, List.mem_map] at hp hp'
    obtain ⟨j, _, rfl⟩ := hp
    obtain ⟨j', _, h⟩ := hp'
    exact hne ((Prod.mk.injEq _ _ _ _ ▸ h).1.symm)

theorem pairList_length : pairList.length = 1024 := by
  unfold pairList
  simp only [List.length_flatMap, Function.comp, List.length_map,
    List.length_finRange, List.map_const']
  rfl

theorem isMatch_iff (a b : Fin 32 → Nat) (i j : Fin 32) :
    isMatch a b i j = true ↔ a i ≠ 0 ∧ b j ≠ 0 ∧ a i = b j := by
  simp [isMatch, and_assoc]

theorem countP_pairList_eq_card (P : Fin 32 × Fin 32 → Bool) :
    pairList.countP P = (Finset.univ.filter (fun p => P p = true)).card := by
  rw [List.countP_eq_length_filter]
  rw [← List.toFinset_card_of_nodup (pairList_nodup.filter P)]
  congr 1
  ext p
  simp [List.mem_filter, mem_pairList]

theorem foldl_matchStep_count (a b : Fin 32 → Nat) :
    ∀ (L : List (Fin 32 × Fin 32)) (s : MatchAcc),
      (L.foldl (fun s p => matchStep a b s p.1 p.2) s).matchCount
        = s.matchCount + L.countP (fun p => isMatch a b p.1 p.2)
  | [], s => by simp
  | p :: L, s => by
    simp only [List.foldl_cons, List.countP_cons,
      foldl_matchStep_count a b L]
    by_cases h : isMatch a b p.1 p.2
    · simp [matchStep, h]
      omega
    · simp [matchStep, h]

theorem matchStep_alice_apply (a b : Fin 32 → Nat) (s : MatchAcc)
    (i j : Fin 32) (k : Fin 32) :
    (matchStep a b s i j).aliceMatches k
      = if i = k then (if isMatch a b i j then a i else s.aliceMatches i)
        else s.aliceMatches k := by
  simp only [matchStep]
  rcases eq_or_ne i k with h | h
  · subst h; simp
  · simp [Function.update_noteq (Ne.symm h), h]

theorem matchStep_bob_apply (a b : Fin 32 → Nat) (s : MatchAcc)
    (i j : Fin 32) (k : Fin 32) :
    (matchStep a b s i j).bobMatches k
      = if j = k then (if isMatch a b i j then b j else s.bobMatches j)
        else s.bobMatches k := by
  simp only [matchStep]
  rcases eq_or_ne j k with h | h
  · subst h; simp
  · simp [Function.update_noteq (Ne.symm h), h]

theorem foldl_matchStep_alice (a b : Fin 32 → Nat) (k : Fin 32) :
    ∀ (L : List (Fin 32 × Fin 32)) (s : MatchAcc),
      (L.foldl (fun s p => matchStep a b s p.1 p.2) s).aliceMatches k
        = if L.any (fun p => p.1 = k && isMatch a b p.1 p.2) then a k
          else s.aliceMatches k
  | [], s => by simp
  | p :: L, s => by
    simp only [List.foldl_cons, List.any_cons,
      foldl_matchStep_alice a b k L]
    rw [matchStep_alice_apply]
    rcases eq_or_ne p.1 k with h1 | h1
    · by_cases h2 : isMatch a b p.1 p.2 <;>
        by_cases h3 : L.any (fun p => p.1 = k && isMatch a b p.1 p.2) <;>
        subst h1 <;> simp [h2, h3]
    · by_cases h3 : L.any (fun p => p.1 = k && isMatch a b p.1 p.2) <;>
        simp [h1, h3]

theorem foldl_matchStep_bob (a b : Fin 32 → Nat) (k : Fin 32) :
    ∀ (L : List (Fin 32 × Fin 32)) (s : MatchAcc),
      (L.foldl (fun s p => matchStep a b s p.1 p.2) s).bobMatches k
        = if L.any (fun p => p.2 = k && isMatch a b p.1 p.2) then b k
          else s.bobMatches k
  | [], s => by simp
  | p :: L, s => by
    simp only [List.foldl_cons, List.any_cons,
      foldl_matchStep_bob a b k L]
    rw [matchStep_bob_apply]
    rcases eq_or_ne p.2 k with h1 | h1
    · by_cases h2 : isMatch a b p.1 p.2 <;>
        by_cases h3 : L.any (fun p => p.2 = k && isMatch a b p.1 p.2) <;>
        subst h1 <;> simp [h2, h3]
    · by_cases h3 : L.any (fun p => p.2 = k && isMatch a b p.1 p.2) <;>
        simp [h1, h3]

theorem submit_and_match_eq_pair_foldl (a b : Fin 32 → Nat) :
    submit_and_match a b
      = pairList.foldl (fun s p => matchStep a b s p.1 p.2)
          ⟨fun _ => 0, fun _ => 0, 0⟩ :=
  foldl_nested (fun s i j => matchStep a b s i j) (List.finRange 32)
    (List.finRange 32) _

theorem any_pairList_fst (a b : Fin 32 → Nat) (k : Fin 32) :
    (pairList.any (fun p => p.1 = k && isMatch a b p.1 p.2) = true)
      ↔ ∃ j, a k ≠ 0 ∧ b j ≠ 0 ∧ a k = b j := by
  simp only [List.any_eq_true, Bool.and_eq_true, decide_eq_true_eq]
  constructor
  · rintro ⟨p, _, rfl, hm⟩
    exact ⟨p.2, (isMatch_iff a b p.1 p.2).mp hm⟩
  · rintro ⟨j, hj⟩
    exact ⟨(k, j), mem_pairList _, rfl, (isMatch_iff a b k j).mpr hj⟩

theorem any_pairList_snd (a b : Fin 32 → Nat) (k : Fin 32) :
    (pairList.any (fun p => p.2 = k && isMatch a b p.1 p.2) = true)
      ↔ ∃ i, a i ≠ 0 ∧ b k ≠ 0 ∧ a i = b k := by
  simp only [List.any_eq_true, Bool.and_eq_true, decide_eq_true_eq]
  constructor
  · rintro ⟨p, _, rfl, hm⟩
    exact ⟨p.1, (isMatch_iff a b p.1 p.2).mp hm⟩
  · rintro ⟨i, hi⟩
    exact ⟨(i, k), mem_pairList _, rfl, (isMatch_iff a b i k).mpr hi⟩

end PCD

namespace PCD

/-! ### Claims C1 and C2 -/

/-- Claim C1: for ContactSets satisfying the invariant, `submit_and_match`
produces `matchCount` equal to the number of ordered pairs `(i, j)` of the
32x32 grid with both slots non-zero and equal; `aliceMatches[i]` is `A[i]`
when some `j` matches it and `0` otherwise, symmetrically for
`bobMatches[j]`; and when the sets share no fingerprint the count is zero and
both match arrays are all-zero. -/
theorem submit_and_match_spec (a b : Fin 32 → Nat) (ca cb : Nat)
    (_hA : ContactSetInv a ca) (_hB : ContactSetInv b cb) :
    (submit_and_match a b).matchCount = (matchPairs a b).card ∧
    (∀ i, (submit_and_match a b).aliceMatches i
      = if ∃ j, a i ≠ 0 ∧ b j ≠ 0 ∧ a i = b j then a i else 0) ∧
    (∀ j, (submit_and_match a b).bobMatches j
      = if ∃ i, a i ≠ 0 ∧ b j ≠ 0 ∧ a i = b j then b j else 0) ∧
    ((∀ i j, ¬(a i ≠ 0 ∧ b j ≠ 0 ∧ a i = b j)) →
      (submit_and_match a b).matchCount = 0 ∧
      (∀ i, (submit_and_match a b).aliceMatches i = 0) ∧
      (∀ j, (submit_and_match a b).bobMatches j = 0)) := by
  have hcount : (submit_and_match a b).matchCount = (matchPairs a b).card := by
    rw [submit_and_match_eq_pair_foldl, foldl_matchStep_count,
      countP_pairList_eq_card]
    simp only [Nat.zero_add]
    congr 1
    apply Finset.filter_congr
    intro p _
    simp [isMatch_iff]
  have halice : ∀ i, (submit_and_match a b).aliceMatches i
      = if ∃ j, a i ≠ 0 ∧ b j ≠ 0 ∧ a i = b j then a i else 0 := by
    intro i
    rw [submit_and_match_eq_pair_foldl, foldl_matchStep_alice]
    by_cases h : ∃ j, a i ≠ 0 ∧ b j ≠ 0 ∧ a i = b j
    · rw [if_pos ((any_pairList_fst a b i).mpr h), if_pos h]
    · rw [if_neg (fun hc => h ((any_pairList_fst a b i).mp hc)), if_neg h]
  have hbob : ∀ j, (submit_and_match a b).bobMatches j
      = if ∃ i, a i ≠ 0 ∧ b j ≠ 0 ∧ a i = b j then b j else 0 := by
    intro j
    rw [submit_and_match_eq_pair_foldl, foldl_matchStep_bob]
    by_cases h : ∃ i, a i ≠ 0 ∧ b j ≠ 0 ∧ a i = b j
    · rw [if_pos ((any_pairList_snd a b j).mpr h), if_pos h]
    · rw [if_neg (fun hc => h ((any_pairList_snd a b j).mp hc)), if_neg h]
  refine ⟨hcount, halice, hbob, ?_⟩
  intro hdisj
  refine ⟨?_, ?_, ?_⟩
  · rw [hcount]
    rw [Finset.card_eq_zero]
    apply Finset.filter_false_of_mem
    intro p _
    exact hdisj p.1 p.2
  · intro i
    rw [halice i, if_neg]
    rintro ⟨j, hj⟩
    exact hdisj i j hj
  · intro j
    rw [hbob j, if_neg]
    rintro ⟨i, hi⟩
    exact hdisj i j hi

/-- Witness for C1: two singleton ContactSets sharing the fingerprint 7. -/
theorem submit_and_match_spec_witness :
    ContactSetInv exampleAlice 1 ∧ ContactSetInv exampleBob 1 ∧
    (submit_and_match exampleAlice exampleBob).matchCount
      = (matchPairs exampleAlice exampleBob).card :=
  ⟨by decide, by decide,
    (submit_and_match_spec exampleAlice exampleBob 1 1 (by decide) (by decide)).1⟩

theorem foldl_instrStep_split (a b : Fin 32 → Nat) :
    ∀ (L : List (Fin 32 × Fin 32)) (s : InstrAcc),
      (L.foldl (fun s p => instrStep a b s p.1 p.2) s).comparisons
          = s.comparisons + L.length ∧
      (L.foldl (fun s p => instrStep a b s p.1 p.2) s).trace = s.trace ++ L ∧
      (L.foldl (fun s p => instrStep a b s p.1 p.2) s).acc
          = L.foldl (fun s p => matchStep a b s p.1 p.2) s.acc
  | [], s => by simp
  | p :: L, s => by
    obtain ⟨h1, h2, h3⟩ := foldl_instrStep_split a b L (instrStep a b s p.1 p.2)
    refine ⟨?_, ?_, ?_⟩
    · rw [List.foldl_cons, h1]
      simp [instrStep]
      omega
    · rw [List.foldl_cons, h2]
      simp [instrStep]
    · rw [List.foldl_cons, h3]
      rfl

theorem submit_and_match_instr_eq_pair_foldl (a b : Fin 32 → Nat) :
    submit_and_match_instr a b
      = pairList.foldl (fun s p => instrStep a b s p.1 p.2)
          ⟨⟨fun _ => 0, fun _ => 0, 0⟩, 0, []⟩ :=
  foldl_nested (fun s i j => instrStep a b s i j) (List.finRange 32)
    (List.finRange 32) _

/-- Claim C2: for every pair of inputs, one execution of the instrumented
`submit_and_match` comparison loop performs exactly 1024 pairwise slot
evaluations; the sequence of evaluated pairs is identical across any two runs
with different inputs; and the instrumentation does not change the computed
result. -/
theorem submit_and_match_fixed_cost (a b : Fin 32 → Nat) :
    (submit_and_match_instr a b).comparisons = 1024 ∧
    (submit_and_match_instr a b).trace.length = 1024 ∧
    (∀ a' b' : Fin 32 → Nat,
      (submit_and_match_instr a b).trace = (submit_and_match_instr a' b').trace) ∧
    (submit_and_match_instr a b).acc = submit_and_match a b := by
  have key : ∀ x y : Fin 32 → Nat,
      (submit_and_match_instr x y).comparisons = 1024 ∧
      (submit_and_match_instr x y).trace = pairList ∧
      (submit_and_match_instr x y).acc = submit_and_match x y := by
    intro x y
    rw [submit_and_match_instr_eq_pair_foldl]
    obtain ⟨h1, h2, h3⟩ := foldl_instrStep_split x y pairList
      ⟨⟨fun _ => 0, fun _ => 0, 0⟩, 0, []⟩
    refine ⟨?_, ?_, ?_⟩
    · rw [h1, pairList_length]
    · rw [h2, List.nil_append]
    · rw [h3, submit_and_match_eq_pair_foldl]
  obtain ⟨h1, h2, h3⟩ := key a b
  refine ⟨h1, ?_, ?_, h3⟩
  · rw [h2, pairList_length]
  · intro a' b'
    rw [h2, (key a' b').2.1]

end PCD

namespace PCD

/-! ### Deduplication and fill lemmas for the hash pipeline -/

theorem mem_insertUnique (acc : List String) (s x : String) :
    x ∈ insertUnique acc s ↔ x ∈ acc ∨ x = s := by
  unfold insertUnique
  by_cases h : s ∈ acc
  · simp only [if_pos h]
    constructor
    · exact Or.inl
    · rintro (hx | rfl)
      · exact hx
      · exact h
  · simp [if_neg h]

theorem insertUnique_nodup (acc : List String) (s : String) (h : acc.Nodup) :
    (insertUnique acc s).Nodup := by
  unfold insertUnique
  by_cases hs : s ∈ acc
  · simpa [if_pos hs] using h
  · simp [if_neg hs, List.nodup_append, h, hs]

theorem insertUnique_length (acc : List String) (s : String) :
    (insertUnique acc s).length ≤ acc.length + 1 := by
  unfold insertUnique
  by_cases hs : s ∈ acc <;> simp [hs]

theorem foldl_insertUnique_mem :
    ∀ (l acc : List String) (x : String),
      x ∈ l.foldl insertUnique acc ↔ x ∈ acc ∨ x ∈ l
  | [], acc, x => by simp
  | s :: l, acc, x => by
    rw [List.foldl_cons, foldl_insertUnique_mem l, mem_insertUnique]
    simp only [List.mem_cons]
    tauto

theorem foldl_insertUnique_nodup :
    ∀ l acc : List String, acc.Nodup → (l.foldl insertUnique acc).Nodup
  | [], _, h => h
  | s :: l, acc, h =>
    foldl_insertUnique_nodup l (insertUnique acc s) (insertUnique_nodup acc s h)

theorem foldl_insertUnique_length :
    ∀ l acc : List String, (l.foldl insertUnique acc).length ≤ acc.length + l.length
  | [], acc => by simp
  | s :: l, acc => by
    calc (l.foldl insertUnique (insertUnique acc s)).length
        ≤ (insertUnique acc s).length + l.length :=
          foldl_insertUnique_length l (insertUnique acc s)
      _ ≤ acc.length + 1 + l.length :=
          Nat.add_le_add_right (insertUnique_length acc s) _
      _ = acc.length + (s :: l).length := by simp; omega

theorem mem_dedupFirst (l : List String) (x : String) :
    x ∈ dedupFirst l ↔ x ∈ l := by
  unfold dedupFirst
  rw [foldl_insertUnique_mem]
  simp

theorem dedupFirst_nodup (l : List String) : (dedupFirst l).Nodup :=
  foldl_insertUnique_nodup l [] List.nodup_nil

theorem dedupFirst_length_le (l : List String) :
    (dedupFirst l).length ≤ l.length := by
  simpa using foldl_insertUnique_length l []

theorem uniqueNormalized_nodup (contacts : List String) :
    (uniqueNormalized contacts).Nodup :=
  (dedupFirst_nodup _).filter _

theorem uniqueNormalized_length_le (contacts : List String) :
    (uniqueNormalized contacts).length ≤ contacts.length := by
  calc (uniqueNormalized contacts).length
      ≤ (dedupFirst (contacts.map normalizeContact)).length :=
        List.length_filter_le _ _
    _ ≤ (contacts.map normalizeContact).length := dedupFirst_length_le _
    _ = contacts.length := List.length_map _ _

theorem string_length_pos_iff (s : String) : 0 < s.length ↔ s ≠ "" := by
  cases s with
  | mk data =>
    constructor
    · intro h he
      rw [he] at h
      simp [String.length] at h
    · intro h
      rcases data with _ | ⟨c, cs⟩
      · exact absurd rfl h
      · simp [String.length]

theorem uniqueNormalized_count (contacts : List String) :
    (uniqueNormalized contacts).length
      = (((contacts.map normalizeContact).filter (fun c => c ≠ "")).toFinset).card := by
  rw [← List.toFinset_card_of_nodup (uniqueNormalized_nodup contacts)]
  congr 1
  ext x
  simp only [List.mem_toFinset, uniqueNormalized, List.mem_filter,
    mem_dedupFirst, decide_eq_true_eq]
  rw [string_length_pos_iff]

theorem fillHashes_length (vals : List Nat) : (fillHashes vals).length = 32 := by
  simp [fillHashes, MAX_CONTACTS]

theorem fillHashes_take (vals : List Nat) (h : vals.length ≤ 32) :
    (fillHashes vals).take vals.length = vals := by
  apply List.ext_getElem
  · simp only [List.length_take, fillHashes_length]
    omega
  · intro i h1 h2
    simp only [List.getElem_take, fillHashes, MAX_CONTACTS, List.getElem_map,
      List.getElem_range]
    rw [List.getD_eq_getElem?_getD, List.getElem?_eq_getElem h2]
    simp

theorem fillHashes_drop (vals : List Nat) (_h : vals.length ≤ 32) :
    (fillHashes vals).drop vals.length = List.replicate (32 - vals.length) 0 := by
  apply List.ext_getElem
  · simp [fillHashes_length]
  · intro i h1 h2
    simp only [List.getElem_drop, fillHashes, MAX_CONTACTS, List.getElem_map,
      List.getElem_range, List.getElem_replicate]
    rw [List.getD_eq_getElem?_getD, List.getElem?_eq_none (by omega)]
    rfl

/-- Claim C4: for at most 32 raw identifiers, `hashContactList` succeeds with
a 32-slot array and a count such that the count is the number of distinct
normalized identifiers that are non-empty after normalization, slots
`[0, count)` hold the fingerprints of those identifiers in first-seen order
of the raw list, and slots `[count, 32)` are all zero. -/
theorem hashContactList_spec (digest : String → Nat) (contacts : List String)
    (h : contacts.length ≤ 32) :
    ∃ hashes count,
      hashContactList digest contacts = Except.ok (hashes, count) ∧
      count = (((contacts.map normalizeContact).filter (fun c => c ≠ "")).toFinset).card ∧
      hashes.length = 32 ∧
      hashes.take count = (uniqueNormalized contacts).map (hashContact digest) ∧
      hashes.drop count = List.replicate (32 - count) 0 := by
  have hlen : ((uniqueNormalized contacts).map (hashContact digest)).length ≤ 32 := by
    rw [List.length_map]
    exact le_trans (uniqueNormalized_length_le contacts) h
  have hcnt : ((uniqueNormalized contacts).map (hashContact digest)).length
      = (uniqueNormalized contacts).length := List.length_map _ _
  refine ⟨fillHashes ((uniqueNormalized contacts).map (hashContact digest)),
    (uniqueNormalized contacts).length, ?_, ?_, fillHashes_length _, ?_, ?_⟩
  · unfold hashContactList MAX_CONTACTS
    rw [if_neg (by omega)]
  · exact uniqueNormalized_count contacts
  · rw [← hcnt]
    exact fillHashes_take _ hlen
  · rw [← hcnt, fillHashes_drop _ hlen, hcnt]

/-- Witness for C4: a raw list with a case-duplicate and an entry normalizing
to the empty string. -/
theorem hashContactList_spec_witness :
    exampleContacts.length ≤ 32 ∧
    ∃ hashes count,
      hashContactList String.length exampleContacts = Except.ok (hashes, count) ∧
      count = (((exampleContacts.map normalizeContact).filter
        (fun c => c ≠ "")).toFinset).card ∧
      hashes.length = 32 ∧
      hashes.take count
        = (uniqueNormalized exampleContacts).map (hashContact String.length) ∧
      hashes.drop count = List.replicate (32 - count) 0 :=
  ⟨by decide, hashContactList_spec String.length exampleContacts (by decide)⟩

end PCD

namespace PCD

/-! ### Character-level lemmas for normalization -/

theorem toLower_eq_self_of (c : Char) (h : ¬(65 ≤ c.toNat ∧ c.toNat ≤ 90)) :
    c.toLower = c := by
  unfold Char.toLower
  rw [if_neg]
  intro hc
  exact h ⟨hc.1, hc.2⟩

theorem toLower_toNat_of_upper (c : Char) (h1 : 65 ≤ c.toNat) (h2 : c.toNat ≤ 90) :
    c.toLower.toNat = c.toNat + 32 := by
  unfold Char.toLower
  rw [if_pos ⟨h1, h2⟩]
  generalize c.toNat = n at h1 h2 ⊢
  interval_cases n <;> decide

theorem toLower_toLower (c : Char) : c.toLower.toLower = c.toLower := by
  by_cases h : 65 ≤ c.toNat ∧ c.toNat ≤ 90
  · have hn := toLower_toNat_of_upper c h.1 h.2
    apply toLower_eq_self_of
    omega
  · rw [toLower_eq_self_of c h, toLower_eq_self_of c h]

theorem jsSpace_eq_false_of (c : Char) (h : 40 ≤ c.toNat) : jsSpace c = false := by
  simp only [jsSpace, Bool.or_eq_false_iff, decide_eq_false_iff_not]
  omega

theorem jsSpace_toLower (c : Char) : jsSpace c.toLower = jsSpace c := by
  by_cases h : 65 ≤ c.toNat ∧ c.toNat ≤ 90
  · have hn := toLower_toNat_of_upper c h.1 h.2
    rw [jsSpace_eq_false_of c.toLower (by omega), jsSpace_eq_false_of c (by omega)]
  · rw [toLower_eq_self_of c h]

theorem jsDigit_toLower_fix (c : Char) (h : jsDigit c = true) : c.toLower = c := by
  simp only [jsDigit, Bool.and_eq_true, decide_eq_true_eq] at h
  apply toLower_eq_self_of
  omega

theorem jsDigit_not_space (c : Char) (h : jsDigit c = true) : jsSpace c = false := by
  simp only [jsDigit, Bool.and_eq_true, decide_eq_true_eq] at h
  exact jsSpace_eq_false_of c (by omega)

/-! ### Trim lemmas -/

theorem dropWhile_eq_self_of_head {α : Type} (p : α → Bool) (l : List α)
    (h : ∀ c ∈ l.head?, p c = false) : l.dropWhile p = l := by
  cases l with
  | nil => rfl
  | cons c cs =>
    rw [List.dropWhile_cons_of_neg]
    simp only [List.head?_cons, Option.mem_def, Option.some.injEq] at h
    simp [h c rfl]

theorem head?_dropWhile_false {α : Type} (p : α → Bool) (l : List α) :
    ∀ c ∈ (l.dropWhile p).head?, p c = false := by
  intro c hc
  have hkey := List.head?_dropWhile_not p l
  rw [Option.mem_def] at hc
  rw [hc] at hkey
  exact hkey

theorem getLast?_dropWhile {α : Type} (p : α → Bool) :
    ∀ l : List α, l.dropWhile p ≠ [] → (l.dropWhile p).getLast? = l.getLast?
  | [], h => absurd rfl h
  | c :: cs, h => by
    by_cases hp : p c
    · rw [List.dropWhile_cons_of_pos hp] at h ⊢
      rw [getLast?_dropWhile p cs h]
      have hcs : cs ≠ [] := by
        intro he
        rw [he] at h
        exact h rfl
      cases cs with
      | nil => exact absurd rfl hcs
      | cons d ds => rw [List.getLast?_cons_cons]
    · rw [List.dropWhile_cons_of_neg hp]

theorem trimChars_eq_self (l : List Char)
    (h1 : ∀ c ∈ l.head?, jsSpace c = false)
    (h2 : ∀ c ∈ l.getLast?, jsSpace c = false) : trimChars l = l := by
  unfold trimChars
  rw [dropWhile_eq_self_of_head _ l h1]
  rw [dropWhile_eq_self_of_head _ l.reverse (by simpa using h2)]
  exact List.reverse_reverse l

theorem trimChars_getLast? (l : List Char) :
    ∀ c ∈ (trimChars l).getLast?, jsSpace c = false := by
  intro c hc
  unfold trimChars at hc
  rw [List.getLast?_reverse] at hc
  exact head?_dropWhile_false _ _ c hc

theorem trimChars_head? (l : List Char) :
    ∀ c ∈ (trimChars l).head?, jsSpace c = false := by
  intro c hc
  unfold trimChars at hc
  rw [List.head?_reverse] at hc
  by_cases hne :
      List.dropWhile jsSpace ((List.dropWhile jsSpace l).reverse) = []
  · rw [hne] at hc
    simp at hc
  · rw [getLast?_dropWhile _ _ hne, List.getLast?_reverse] at hc
    exact head?_dropWhile_false _ _ c hc

theorem trimChars_idem (l : List Char) : trimChars (trimChars l) = trimChars l :=
  trimChars_eq_self _ (trimChars_head? l) (trimChars_getLast? l)

theorem trimChars_map_toLower (l : List Char) :
    trimChars (l.map Char.toLower) = (trimChars l).map Char.toLower := by
  have hps : (jsSpace ∘ Char.toLower) = jsSpace := funext jsSpace_toLower
  unfold trimChars
  rw [List.dropWhile_map, hps, ← List.map_reverse, List.dropWhile_map, hps,
    ← List.map_reverse]

theorem map_toLower_fix (l : List Char) (h : ∀ c ∈ l, Char.toLower c = c) :
    l.map Char.toLower = l := by
  rw [List.map_congr_left h, List.map_id']

theorem map_map_toLower (l : List Char) :
    (l.map Char.toLower).map Char.toLower = l.map Char.toLower := by
  rw [List.map_map]
  exact List.map_congr_left (fun c _ => toLower_toLower c)

/-! ### Normalization idempotence -/

theorem normalizeChars_def (m : List Char) :
    normalizeChars m =
      if phoneLike ((trimChars m).map Char.toLower) then
        (if (keepDigitsPlus ((trimChars m).map Char.toLower)).head? = some '+'
         then keepDigitsPlus ((trimChars m).map Char.toLower)
         else '+' :: '1' :: keepDigitsPlus ((trimChars m).map Char.toLower))
      else (trimChars m).map Char.toLower := rfl

theorem normalizeChars_fixed (y : List Char) (hne : y ≠ [])
    (hall : ∀ c ∈ y, (jsDigit c || decide (c = '+')) = true)
    (hhead : y.head? = some '+') :
    normalizeChars y = y := by
  have hfix : ∀ c ∈ y, Char.toLower c = c := by
    intro c hc
    rcases Bool.or_eq_true_iff.mp (hall c hc) with hd | hp
    · exact jsDigit_toLower_fix c hd
    · have hcp : c = '+' := by simpa using hp
      subst hcp
      decide
  have hspace : ∀ c ∈ y, jsSpace c = false := by
    intro c hc
    rcases Bool.or_eq_true_iff.mp (hall c hc) with hd | hp
    · exact jsDigit_not_space c hd
    · have hcp : c = '+' := by simpa using hp
      subst hcp
      decide
  have htrim : trimChars y = y :=
    trimChars_eq_self y
      (fun c hc => hspace c (List.mem_of_mem_head? hc))
      (fun c hc => hspace c (List.mem_of_getLast?_eq_some (Option.mem_def.mp hc)))
  have hn : (trimChars y).map Char.toLower = y := by
    rw [htrim]
    exact map_toLower_fix y hfix
  have hphone : phoneLike y = true := by
    simp only [phoneLike, Bool.and_eq_true, Bool.not_eq_true',
      List.all_eq_true]
    constructor
    · cases y with
      | nil => exact absurd rfl hne
      | cons c cs => rfl
    · intro c hc
      rcases Bool.or_eq_true_iff.mp (hall c hc) with hd | hp
      · simp [isPhoneChar, hd]
      · have hcp : c = '+' := by simpa using hp
        subst hcp
        decide
  have hkeep : keepDigitsPlus y = y := by
    unfold keepDigitsPlus
    exact List.filter_eq_self.mpr hall
  rw [normalizeChars_def, hn, if_pos hphone, hkeep, if_pos hhead]

theorem normalizeChars_idem (l : List Char) :
    normalizeChars (normalizeChars l) = normalizeChars l := by
  by_cases hp : phoneLike ((trimChars l).map Char.toLower)
  · have hallr : ∀ c ∈ keepDigitsPlus ((trimChars l).map Char.toLower),
        (jsDigit c || decide (c = '+')) = true := by
      intro c hc
      exact (List.mem_filter.mp hc).2
    by_cases hplus :
        (keepDigitsPlus ((trimChars l).map Char.toLower)).head? = some '+'
    · have hy : normalizeChars l = keepDigitsPlus ((trimChars l).map Char.toLower) := by
        rw [normalizeChars_def, if_pos hp, if_pos hplus]
      rw [hy]
      refine normalizeChars_fixed _ ?_ hallr hplus
      intro he
      rw [he] at hplus
      simp at hplus
    · have hy : normalizeChars l
          = '+' :: '1' :: keepDigitsPlus ((trimChars l).map Char.toLower) := by
        rw [normalizeChars_def, if_pos hp, if_neg hplus]
      rw [hy]
      refine normalizeChars_fixed _ (by simp) ?_ rfl
      intro c hc
      simp only [List.mem_cons] at hc
      rcases hc with rfl | rfl | hc
      · decide
      · decide
      · exact hallr c hc
  · have hy : normalizeChars l = (trimChars l).map Char.toLower := by
      rw [normalizeChars_def, if_neg hp]
    have hn2 : (trimChars (normalizeChars l)).map Char.toLower
        = (trimChars l).map Char.toLower := by
      rw [hy, trimChars_map_toLower, trimChars_idem, map_map_toLower]
    rw [normalizeChars_def (normalizeChars l), hn2, if_neg hp, hy]

/-- Claim C8: `normalizeContact` is idempotent on every input string,
covering both the phone-number branch and the trim-and-lowercase branch. -/
theorem normalizeContact_idempotent (x : String) :
    normalizeContact (normalizeContact x) = normalizeContact x := by
  unfold normalizeContact
  exact congrArg String.mk (normalizeChars_idem x.data)

end PCD
